import Mathlib

/-!
# Verification of the blockchain core, miner and networking node

A shallow embedding, in Lean 4, of the TypeScript blockchain sources of this
repository (`src/core/blockchain.ts`, `src/consensus/miner.ts`,
`src/networking/node.ts`), together with proofs of the specification claims
about them.

Modelling conventions:
* JavaScript numbers holding monetary values (`amount`, `fee`, balances) are
  modelled as `Int`; block indices, timestamps and nonces as `Nat`.
* The SHA-256 primitive (`createHash('sha256')` from the Node standard
  library, which is not part of this repository) is abstracted as an
  arbitrary function `sha256 : String → String`; every definition is
  parametrised by it.  The string that is hashed (`blockString`) is built
  concretely, following the source.
* `Date.now()` timestamps are passed in explicitly as `now : Nat`.
* The unbounded `while (true)` proof-of-work loop is modelled with explicit
  fuel, returning `Option`: `none` models non-termination of the loop, and
  the termination theorem shows that whenever a satisfying nonce exists,
  sufficient fuel makes the search succeed with the least such nonce.
-/

/-- The `Transaction` interface of `src/core/blockchain.ts`.  The TypeScript
field `from` is a Lean keyword, so it is rendered `from_`. -/
structure Transaction where
  from_ : String
  to_ : String
  amount : Int
  fee : Int
  timestamp : Nat
  signature : String
  deriving Repr, DecidableEq

/-- The `Block` interface of `src/core/blockchain.ts`. -/
structure Block where
  index : Nat
  previousHash : String
  timestamp : Nat
  transactions : List Transaction
  nonce : Nat
  hash : String
  deriving Repr, DecidableEq

instance : Inhabited Block :=
  ⟨{ index := 0, previousHash := "", timestamp := 0, transactions := [],
     nonce := 0, hash := "" }⟩

/-- The private state of the `Blockchain` class: `chain`,
`pendingTransactions` and `difficulty`. -/
structure Blockchain where
  chain : List Block
  pendingTransactions : List Transaction
  difficulty : Nat
  deriving Repr, DecidableEq

/-- Minimal JSON string escaping as performed by `JSON.stringify` on the
plain string fields that occur here (backslash and double quote). -/
def jsonEscape (s : String) : String :=
  String.join (s.data.map fun c =>
    if c = '\\' then "\\\\" else if c = '"' then "\\\"" else String.singleton c)

/-- `JSON.stringify` of a single `Transaction` object, with the fields in
interface order. -/
def txStringify (tx : Transaction) : String :=
  "\x7b\"from\":\"" ++ jsonEscape tx.from_ ++ "\",\"to\":\"" ++ jsonEscape tx.to_ ++
    "\",\"amount\":" ++ toString tx.amount ++ ",\"fee\":" ++ toString tx.fee ++
    ",\"timestamp\":" ++ toString tx.timestamp ++ ",\"signature\":\"" ++
    jsonEscape tx.signature ++ "\"\x7d"

/-- `JSON.stringify` of a transaction array. -/
def txsStringify (txs : List Transaction) : String :=
  "[" ++ String.intercalate "," (txs.map txStringify) ++ "]"

/-- The string that `Blockchain.calculateHash` feeds to SHA-256:
`block.index + block.previousHash + block.timestamp +
JSON.stringify(block.transactions) + block.nonce` (JavaScript string
concatenation).  Note that the stored `hash` field is not part of it. -/
def blockString (b : Block) : String :=
  toString b.index ++ b.previousHash ++ toString b.timestamp ++
    txsStringify b.transactions ++ toString b.nonce

/-- `Blockchain.calculateHash`, parametrised by the SHA-256 primitive. -/
def calculateHash (sha256 : String → String) (b : Block) : String :=
  sha256 (blockString b)

/-- `Blockchain.createGenesisBlock`: the index-0 block with `previousHash`
`"0"`, no transactions, nonce 0, and its hash computed once (no
proof-of-work search). -/
def createGenesisBlock (sha256 : String → String) (now : Nat) : Block :=
  let genesisBlock : Block :=
    { index := 0, previousHash := "0", timestamp := now, transactions := [],
      nonce := 0, hash := "" }
  { genesisBlock with hash := calculateHash sha256 genesisBlock }

/-- The `Blockchain` constructor: chain holds exactly the genesis block,
pending pool empty, difficulty 4. -/
def Blockchain.init (sha256 : String → String) (now : Nat) : Blockchain :=
  { chain := [createGenesisBlock sha256 now]
    pendingTransactions := []
    difficulty := 4 }

/-- `Blockchain.getLatestBlock`: `chain[chain.length - 1]`.  The source
never calls it on an empty chain (the constructor installs genesis);
the default is the `Inhabited` block. -/
def Blockchain.getLatestBlock (bc : Blockchain) : Block :=
  bc.chain.getLastD default

/-- `Blockchain.isValidTransaction`: non-empty `from`, non-empty `to`,
positive `amount`, non-negative `fee`. -/
def isValidTransaction (tx : Transaction) : Bool :=
  tx.from_ ≠ "" && tx.to_ ≠ "" && tx.amount > 0 && tx.fee ≥ 0

/-- `Blockchain.addTransaction`: returns the boolean result together with
the updated state (the TypeScript method mutates `this`). -/
def Blockchain.addTransaction (bc : Blockchain) (tx : Transaction) :
    Bool × Blockchain :=
  if !isValidTransaction tx then (false, bc)
  else (true, { bc with pendingTransactions := bc.pendingTransactions ++ [tx] })

/-- The proof-of-work target string: `'0'.repeat(difficulty)`. -/
def powTarget (difficulty : Nat) : String :=
  String.mk (List.replicate difficulty '0')

/-- The difficulty test of the source:
`hash.substring(0, difficulty) === '0'.repeat(difficulty)`. -/
def meetsTarget (difficulty : Nat) (h : String) : Bool :=
  h.take difficulty = powTarget difficulty

/-- `Blockchain.mineBlockWithProofOfWork`, with explicit fuel in place of
the unbounded `while (true)`: compute the hash of the candidate; if it
meets the target return the (nonce-updated) block and its hash, else
increment the nonce and retry.  `none` models loop non-termination. -/
def mineBlockWithProofOfWork (sha256 : String → String) (difficulty : Nat) :
    Nat → Block → Option (Block × String)
  | 0, _ => none
  | fuel + 1, b =>
    let h := calculateHash sha256 b
    if meetsTarget difficulty h then some (b, h)
    else mineBlockWithProofOfWork sha256 difficulty fuel
      { b with nonce := b.nonce + 1 }

/-- The mining reward transaction synthesized by `Blockchain.mineBlock`. -/
def rewardTransaction (minerAddress : String) (now : Nat) : Transaction :=
  { from_ := "system", to_ := minerAddress, amount := 50, fee := 0,
    timestamp := now, signature := "system_reward" }

/-- `Blockchain.mineBlock`: append the reward transaction after the pending
pool, build the candidate block (index = chain length, previousHash = tip
hash, nonce 0), run proof-of-work, append the mined block and clear the
pending pool.  Returns the mined block and the updated state. -/
def Blockchain.mineBlock (sha256 : String → String) (now : Nat) (fuel : Nat)
    (bc : Blockchain) (minerAddress : String) :
    Option (Block × Blockchain) :=
  let transactions := bc.pendingTransactions ++ [rewardTransaction minerAddress now]
  let newBlock : Block :=
    { index := bc.chain.length
      previousHash := bc.getLatestBlock.hash
      timestamp := now
      transactions := transactions
      nonce := 0
      hash := "" }
  match mineBlockWithProofOfWork sha256 bc.difficulty fuel newBlock with
  | none => none
  | some (minedCandidate, h) =>
    let minedBlock := { minedCandidate with hash := h }
    some (minedBlock,
      { bc with chain := bc.chain ++ [minedBlock], pendingTransactions := [] })

/-- The three per-block checks of `Blockchain.validateChain` on a block
`cur` whose predecessor is `prev`: stored hash equals the recomputed hash,
`previousHash` links to the predecessor's stored hash, and the stored hash
meets the difficulty target. -/
def blockChecks (sha256 : String → String) (difficulty : Nat)
    (prev cur : Block) : Bool :=
  cur.hash = calculateHash sha256 cur &&
    cur.previousHash = prev.hash &&
    meetsTarget difficulty cur.hash

/-- The loop of `Blockchain.validateChain` from index 1 onward, carrying the
previous block; returns `false` at the first failing block. -/
def validateChainFrom (sha256 : String → String) (difficulty : Nat) :
    Block → List Block → Bool
  | _, [] => true
  | prev, cur :: rest =>
    if cur.hash ≠ calculateHash sha256 cur then false
    else if cur.previousHash ≠ prev.hash then false
    else if ¬ meetsTarget difficulty cur.hash then false
    else validateChainFrom sha256 difficulty cur rest

/-- `Blockchain.validateChain`: iterate from index 1; a chain of length 0
or 1 is vacuously valid. -/
def Blockchain.validateChain (sha256 : String → String) (bc : Blockchain) :
    Bool :=
  match bc.chain with
  | [] => true
  | genesis :: rest => validateChainFrom sha256 bc.difficulty genesis rest

/-- `Blockchain.getPendingTransactions`. -/
def Blockchain.getPendingTransactions (bc : Blockchain) : List Transaction :=
  bc.pendingTransactions

/-- One transaction's effect on the running balance of `address`, as in the
body of the double loop of `Blockchain.getBalance`: subtract
`amount + fee` when `address` is the sender, add `amount` when it is the
recipient. -/
def applyTxToBalance (address : String) (balance : Int) (tx : Transaction) :
    Int :=
  let afterFrom := if tx.from_ = address then balance - (tx.amount + tx.fee)
    else balance
  if tx.to_ = address then afterFrom + tx.amount else afterFrom

/-- `Blockchain.getBalance`: replay every transaction of every block of the
chain, in order, starting from 0.  Pending transactions are not counted. -/
def Blockchain.getBalance (bc : Blockchain) (address : String) : Int :=
  bc.chain.foldl
    (fun bal blk => blk.transactions.foldl (applyTxToBalance address) bal) 0

/-! ## Networking node (`src/networking/node.ts`) -/

/-- The payload carried in a `NetworkMessage`'s `data: any` field, by shape.
Only the shapes actually consumed by the handlers are modelled. -/
inductive MsgData where
  | blockData (b : Block)
  | txData (t : Transaction)
  | hashData (s : String)
  | peerData (ps : List String)
  | emptyData
  deriving Repr, DecidableEq

/-- The `NetworkMessage` interface.  The `type` discriminant is a plain
string: at runtime a peer can send any string, and the dispatcher has a
default branch for unrecognized ones. -/
structure NetworkMessage where
  type : String
  data : MsgData
  timestamp : Nat
  fromPeer : Option String
  deriving Repr, DecidableEq

/-- Observable events of a `Node` handler invocation: console logs and
calls into the local `Blockchain` ledger. -/
inductive NodeEvent where
  | logReceivedBlock (index : Nat)
  | logBlockValidatedAdded (index : Nat)
  | logReceivedTransaction (sender recipient : String)
  | ledgerAddTransactionCall (t : Transaction)
  | logBlockRequest (blockHash peerId : String)
  | logPeerDiscovery
  | logPing (peerId : String)
  | logUnknownType (t : String)
  deriving Repr, DecidableEq

/-- The state of the `Node` class that the message handlers can touch. -/
structure NodeState where
  blockchain : Blockchain
  peers : List String
  isRunning : Bool
  nodeId : String
  deriving Repr, DecidableEq

/-- `Node.handleNewBlock`: logs receipt and "validated and added", but the
body performs no validation and never touches the chain (the validation is
only a comment in the source). -/
def handleNewBlock (b : Block) (node : NodeState) :
    NodeState × List NodeEvent :=
  (node, [NodeEvent.logReceivedBlock b.index,
          NodeEvent.logBlockValidatedAdded b.index])

/-- `Node.handleNewTransaction`: logs receipt, then calls
`blockchain.addTransaction(transaction)` (result discarded). -/
def handleNewTransaction (t : Transaction) (node : NodeState) :
    NodeState × List NodeEvent :=
  let r := node.blockchain.addTransaction t
  ({ node with blockchain := r.2 },
   [NodeEvent.logReceivedTransaction t.from_ t.to_,
    NodeEvent.ledgerAddTransactionCall t])

/-- `Node.handleBlockRequest`: logs only. -/
def handleBlockRequest (blockHash peerId : String) (node : NodeState) :
    NodeState × List NodeEvent :=
  (node, [NodeEvent.logBlockRequest blockHash peerId])

/-- `Node.handlePeerDiscovery`: logs only (the exchange of peer information
is a comment in the source). -/
def handlePeerDiscovery (node : NodeState) : NodeState × List NodeEvent :=
  (node, [NodeEvent.logPeerDiscovery])

/-- `Node.handlePing`: logs only. -/
def handlePing (peerId : String) (node : NodeState) :
    NodeState × List NodeEvent :=
  (node, [NodeEvent.logPing peerId])

/-- `Node.handleMessage`: routes purely on `message.type`; an unrecognized
type falls to the `default` branch, which logs and drops the message.  A
recognized type whose payload does not have the shape its handler casts it
to is outside the model (the source would operate on `undefined` fields);
such a call is modelled as a no-op. -/
def handleMessage (message : NetworkMessage) (peerId : String)
    (node : NodeState) : NodeState × List NodeEvent :=
  if message.type = "NEW_BLOCK" then
    match message.data with
    | MsgData.blockData b => handleNewBlock b node
    | _ => (node, [])
  else if message.type = "NEW_TRANSACTION" then
    match message.data with
    | MsgData.txData t => handleNewTransaction t node
    | _ => (node, [])
  else if message.type = "BLOCK_REQUEST" then
    match message.data with
    | MsgData.hashData h => handleBlockRequest h peerId node
    | _ => (node, [])
  else if message.type = "PEER_DISCOVERY" then
    handlePeerDiscovery node
  else if message.type = "PING" then
    handlePing peerId node
  else
    (node, [NodeEvent.logUnknownType message.type])

/-! ## Miner (`src/consensus/miner.ts`) -/

/-- The state of the `Miner` class (the `blockchain` and `node` references
are passed to the loop step explicitly). -/
structure Miner where
  isMining : Bool
  minerAddress : String
  deriving Repr, DecidableEq

/-- `Miner.start`: sets `isMining` and launches the loop. -/
def Miner.start (m : Miner) : Miner :=
  { m with isMining := true }

/-- `Miner.stop`: clears `isMining`; the loop observes the flag at its next
iteration boundary. -/
def Miner.stop (m : Miner) : Miner :=
  { m with isMining := false }

/-- `Miner.isMiningActive`. -/
def Miner.isMiningActive (m : Miner) : Bool :=
  m.isMining

/-- What one iteration of `Miner.miningLoop` did. -/
inductive MinerAction where
  /-- the `while` condition was false: the loop exits without mining -/
  | exited
  /-- the pending pool was empty: only wait and re-check -/
  | idled
  /-- `mineBlock` produced this block and `node.broadcastBlock` was called
  on it -/
  | minedAndBroadcast (b : Block)
  /-- the proof-of-work search did not terminate within the fuel -/
  | stuck
  deriving Repr, DecidableEq

/-- One iteration of `Miner.miningLoop`: check the `isMining` flag; when
set, read the pending pool; when non-empty, call `mineBlock` and broadcast
the produced block; otherwise just wait before re-checking. -/
def miningLoopIter (sha256 : String → String) (now fuel : Nat) (m : Miner)
    (bc : Blockchain) : Blockchain × MinerAction :=
  if !m.isMining then (bc, MinerAction.exited)
  else if bc.getPendingTransactions.length > 0 then
    match bc.mineBlock sha256 now fuel m.minerAddress with
    | some (newBlock, bc') => (bc', MinerAction.minedAndBroadcast newBlock)
    | none => (bc, MinerAction.stuck)
  else (bc, MinerAction.idled)

/-! ## Helper lemmas -/

/-- The hashed content does not include the stored `hash` field. -/
theorem calculateHash_hash_irrel (sha256 : String → String) (b : Block)
    (s : String) :
    calculateHash sha256 { b with hash := s } = calculateHash sha256 b := rfl

/-- A successful proof-of-work run keeps every field except `nonce` and
`hash`, returns the hash of the resulting block, meets the target, does not
decrease the nonce, and skips no satisfying nonce. -/
theorem pow_result_fields (sha256 : String → String) (difficulty : Nat)
    (fuel : Nat) :
    ∀ (b b' : Block) (hsh : String),
      mineBlockWithProofOfWork sha256 difficulty fuel b = some (b', hsh) →
      b'.index = b.index ∧ b'.previousHash = b.previousHash ∧
      b'.timestamp = b.timestamp ∧ b'.transactions = b.transactions ∧
      b'.hash = b.hash ∧ hsh = calculateHash sha256 b' ∧
      meetsTarget difficulty hsh = true ∧ b.nonce ≤ b'.nonce ∧
      (∀ n, b.nonce ≤ n → n < b'.nonce →
        meetsTarget difficulty (calculateHash sha256 { b with nonce := n }) = false) := by
  induction fuel with
  | zero =>
    intro b b' hsh h
    simp [mineBlockWithProofOfWork] at h
  | succ fuel ih =>
    intro b b' hsh h
    rw [mineBlockWithProofOfWork] at h
    by_cases hm : meetsTarget difficulty (calculateHash sha256 b) = true
    · simp only [hm, if_true] at h
      obtain ⟨hb, hs⟩ := Prod.mk.injEq .. ▸ Option.some.injEq .. ▸ h
      subst hb
      refine ⟨rfl, rfl, rfl, rfl, rfl, ?_, ?_, Nat.le_refl _, ?_⟩
      · exact hs.symm
      · rw [← hs]; exact hm
      · intro n h1 h2; omega
    · simp only [hm, if_false, Bool.false_eq_true] at h
      obtain ⟨h1, h2, h3, h4, h5, h6, h7, h8, h9⟩ := ih _ _ _ h
      refine ⟨h1, h2, h3, h4, h5, h6, h7, by simp at h8; omega, ?_⟩
      intro n hn1 hn2
      rcases Nat.eq_or_lt_of_le hn1 with hn | hn
      · have hb : ({ b with nonce := n } : Block) = b := by
          rw [← hn]
        rw [hb]
        simpa using hm
      · have := h9 n (by simpa using hn) hn2
        simpa using this

/-- If some nonce offset `k` from the current one satisfies the target,
then fuel `> k` makes the proof-of-work search succeed. -/
theorem pow_succeeds (sha256 : String → String) (difficulty : Nat) (k : Nat) :
    ∀ (b : Block),
      meetsTarget difficulty
        (calculateHash sha256 { b with nonce := b.nonce + k }) = true →
      ∀ fuel, k < fuel →
        (mineBlockWithProofOfWork sha256 difficulty fuel b).isSome = true := by
  induction k with
  | zero =>
    intro b hb fuel hf
    obtain ⟨fuel, rfl⟩ : ∃ f, fuel = f + 1 := ⟨fuel - 1, by omega⟩
    rw [mineBlockWithProofOfWork]
    have hb' : meetsTarget difficulty (calculateHash sha256 b) = true := hb
    simp [hb']
  | succ k ih =>
    intro b hb fuel hf
    obtain ⟨fuel, rfl⟩ : ∃ f, fuel = f + 1 := ⟨fuel - 1, by omega⟩
    rw [mineBlockWithProofOfWork]
    by_cases hm : meetsTarget difficulty (calculateHash sha256 b) = true
    · simp [hm]
    · simp only [hm, if_false, Bool.false_eq_true]
      apply ih { b with nonce := b.nonce + 1 } ?_ fuel (by omega)
      have harith : b.nonce + 1 + k = b.nonce + (k + 1) := by omega
      show meetsTarget difficulty
        (calculateHash sha256 { b with nonce := b.nonce + 1 + k }) = true
      rw [harith]
      exact hb

/-- Everything a successful `mineBlock` guarantees about the produced block
and the successor state. -/
theorem mineBlock_some (sha256 : String → String) (now fuel : Nat)
    (bc : Blockchain) (addr : String) (blk : Block) (bc' : Blockchain)
    (h : bc.mineBlock sha256 now fuel addr = some (blk, bc')) :
    blk.index = bc.chain.length ∧
    blk.previousHash = bc.getLatestBlock.hash ∧
    blk.timestamp = now ∧
    blk.transactions = bc.pendingTransactions ++ [rewardTransaction addr now] ∧
    blk.hash = calculateHash sha256 blk ∧
    meetsTarget bc.difficulty blk.hash = true ∧
    bc' = { bc with chain := bc.chain ++ [blk], pendingTransactions := [] } := by
  rw [Blockchain.mineBlock] at h
  cases hpow : mineBlockWithProofOfWork sha256 bc.difficulty fuel
      { index := bc.chain.length, previousHash := bc.getLatestBlock.hash,
        timestamp := now,
        transactions := bc.pendingTransactions ++ [rewardTransaction addr now],
        nonce := 0, hash := "" } with
  | none => rw [hpow] at h; simp at h
  | some result =>
    obtain ⟨minedCandidate, hsh⟩ := result
    rw [hpow] at h
    simp only [Option.some.injEq, Prod.mk.injEq] at h
    obtain ⟨hblk, hbc'⟩ := h
    obtain ⟨f1, f2, f3, f4, f5, f6, f7, _, _⟩ :=
      pow_result_fields sha256 bc.difficulty fuel _ _ _ hpow
    subst hblk
    refine ⟨by simpa using f1, by simpa using f2, by simpa using f3,
      by simpa using f4, ?_, ?_, hbc'.symm⟩
    · show hsh = calculateHash sha256 { minedCandidate with hash := hsh }
      rw [calculateHash_hash_irrel]
      exact f6
    · show meetsTarget bc.difficulty hsh = true
      exact f7

/-- One unfolding of the validation loop: a step passes exactly when all
three checks pass, and then validation continues with `cur` as the new
predecessor. -/
theorem validateChainFrom_cons (sha256 : String → String) (difficulty : Nat)
    (prev cur : Block) (rest : List Block) :
    validateChainFrom sha256 difficulty prev (cur :: rest) =
      (blockChecks sha256 difficulty prev cur &&
        validateChainFrom sha256 difficulty cur rest) := by
  rw [validateChainFrom, blockChecks]
  by_cases h1 : cur.hash = calculateHash sha256 cur <;>
    by_cases h2 : cur.previousHash = prev.hash <;>
      by_cases h3 : meetsTarget difficulty cur.hash = true <;>
        simp [h1, h2, h3]

/-- The validation loop is the adjacent-pairs chain predicate on
`prev :: rest`. -/
theorem validateChainFrom_iff_chain' (sha256 : String → String)
    (difficulty : Nat) (rest : List Block) :
    ∀ prev : Block,
      validateChainFrom sha256 difficulty prev rest = true ↔
        List.Chain' (fun p c => blockChecks sha256 difficulty p c = true)
          (prev :: rest) := by
  induction rest with
  | nil => intro prev; simp [validateChainFrom]
  | cons cur rest ih =>
    intro prev
    rw [validateChainFrom_cons, List.chain'_cons, Bool.and_eq_true, ih]

/-- `validateChain` is the adjacent-pairs chain predicate on the whole
chain (for an empty chain both sides hold vacuously). -/
theorem validateChain_iff_chain' (sha256 : String → String)
    (bc : Blockchain) :
    bc.validateChain sha256 = true ↔
      List.Chain' (fun p c => blockChecks sha256 bc.difficulty p c = true)
        bc.chain := by
  rw [Blockchain.validateChain]
  cases hc : bc.chain with
  | nil => simp
  | cons g rest => exact validateChainFrom_iff_chain' sha256 bc.difficulty rest g

/-- Appending a block that recomputes, links to the stored tip hash and
meets the target preserves chain validity. -/
theorem validateChain_append (sha256 : String → String) (bc : Blockchain)
    (blk : Block) (hne : bc.chain ≠ [])
    (hv : bc.validateChain sha256 = true)
    (hh : blk.hash = calculateHash sha256 blk)
    (hp : blk.previousHash = (bc.chain.getLastD default).hash)
    (ht : meetsTarget bc.difficulty blk.hash = true) :
    Blockchain.validateChain sha256
      { bc with chain := bc.chain ++ [blk], pendingTransactions := [] } = true := by
  rw [validateChain_iff_chain']
  show List.Chain' (fun p c => blockChecks sha256 bc.difficulty p c = true)
    (bc.chain ++ [blk])
  rw [List.chain'_append]
  refine ⟨(validateChain_iff_chain' sha256 bc).mp hv, List.chain'_singleton blk, ?_⟩
  intro x hx y hy
  have hlast : bc.chain.getLast? = some (bc.chain.getLastD default) := by
    rw [List.getLastD_eq_getLast?]
    cases hl : bc.chain.getLast? with
    | none => exact absurd (List.getLast?_eq_none_iff.mp hl) hne
    | some a => rfl
  rw [hlast] at hx
  simp only [Option.mem_def, Option.some.injEq] at hx
  simp only [List.head?_cons, Option.mem_def, Option.some.injEq] at hy
  subst hx hy
  rw [blockChecks]
  simp [← hh, hp, ht]

/-- `addTransaction` never touches the chain or the difficulty. -/
theorem addTransaction_chain (bc : Blockchain) (tx : Transaction) :
    (bc.addTransaction tx).2.chain = bc.chain ∧
    (bc.addTransaction tx).2.difficulty = bc.difficulty := by
  rw [Blockchain.addTransaction]
  by_cases h : isValidTransaction tx = true <;> simp [h]

/-- Ledger states reachable through the public API: construction, adding
transactions and (successful) mining — a "freshly mined chain". -/
inductive Reachable (sha256 : String → String) : Blockchain → Prop where
  | init (now : Nat) : Reachable sha256 (Blockchain.init sha256 now)
  | addTx {bc : Blockchain} (tx : Transaction) : Reachable sha256 bc →
      Reachable sha256 (bc.addTransaction tx).2
  | mine {bc : Blockchain} (now fuel : Nat) (addr : String) {blk : Block}
      {bc' : Blockchain} : Reachable sha256 bc →
      bc.mineBlock sha256 now fuel addr = some (blk, bc') →
      Reachable sha256 bc'

/-- Every reachable ledger state has a non-empty chain that passes
`validateChain`. -/
theorem reachable_valid (sha256 : String → String) (bc : Blockchain)
    (h : Reachable sha256 bc) :
    bc.chain ≠ [] ∧ bc.validateChain sha256 = true := by
  induction h with
  | init now => exact ⟨by simp [Blockchain.init], rfl⟩
  | addTx tx _ ih =>
    obtain ⟨hne, hv⟩ := ih
    obtain ⟨hc, hd⟩ := addTransaction_chain _ tx
    constructor
    · rw [hc]; exact hne
    · rw [validateChain_iff_chain', hc, hd]
      exact (validateChain_iff_chain' sha256 _).mp hv
  | mine now fuel addr hr heq ih =>
    rename_i bc₀ blk bc'
    obtain ⟨hne, hv⟩ := ih
    obtain ⟨_, hp, _, _, hh, ht, hbc'⟩ :=
      mineBlock_some sha256 now fuel bc₀ addr blk bc' heq
    subst hbc'
    constructor
    · simp
    · exact validateChain_append sha256 bc₀ blk hne hv hh hp ht

/-- The specification's per-transaction contribution to the balance of
`address`: plus `amount` when it is the recipient, minus `amount + fee`
when it is the sender.  Stated from the spec's words, to be compared with
the source's `getBalance` fold. -/
def txNet (address : String) (tx : Transaction) : Int :=
  (if tx.to_ = address then tx.amount else 0) -
    (if tx.from_ = address then tx.amount + tx.fee else 0)

/-- One step of the `getBalance` fold adds exactly the specified net
contribution. -/
theorem applyTxToBalance_eq (address : String) (bal : Int)
    (tx : Transaction) :
    applyTxToBalance address bal tx = bal + txNet address tx := by
  rw [applyTxToBalance, txNet]
  by_cases h1 : tx.from_ = address <;> by_cases h2 : tx.to_ = address <;>
    simp [h1, h2] <;> ring

/-- Folding a transaction list starts from the accumulator and adds the
sum of the net contributions. -/
theorem foldl_applyTxToBalance (address : String) (l : List Transaction) :
    ∀ bal : Int,
      l.foldl (applyTxToBalance address) bal =
        bal + (l.map (txNet address)).sum := by
  induction l with
  | nil => intro bal; simp
  | cons t l ih =>
    intro bal
    rw [List.foldl_cons, applyTxToBalance_eq, ih]
    simp [add_assoc]

/-- The double fold of `getBalance` equals the double sum of the
specified net contributions. -/
theorem getBalance_eq_sum (bc : Blockchain) (address : String) :
    bc.getBalance address =
      (bc.chain.map
        (fun blk => (blk.transactions.map (txNet address)).sum)).sum := by
  rw [Blockchain.getBalance]
  have h : ∀ (chain : List Block) (bal : Int),
      chain.foldl
        (fun bal blk => blk.transactions.foldl (applyTxToBalance address) bal)
        bal =
      bal + (chain.map
        (fun blk => (blk.transactions.map (txNet address)).sum)).sum := by
    intro chain
    induction chain with
    | nil => intro bal; simp
    | cons blk chain ih =>
      intro bal
      rw [List.foldl_cons, foldl_applyTxToBalance, ih]
      simp [add_assoc]
  rw [h]
  simp

/-! ## Concrete fixtures for witnesses -/

/-- A stub hash primitive whose output always meets difficulty 4. -/
def shaZero : String → String := fun _ => "0000"

/-- A stub hash primitive whose output never meets a positive difficulty. -/
def shaF : String → String := fun _ => "ffff"

/-- A concrete valid transaction. -/
def txAliceBob : Transaction :=
  { from_ := "alice", to_ := "bob", amount := 50, fee := 1, timestamp := 7,
    signature := "sig1" }

/-- A concrete ledger: fresh chain plus one admitted transaction. -/
def bcW1 : Blockchain :=
  ((Blockchain.init shaZero 5).addTransaction txAliceBob).2

/-- The result of mining `bcW1` (total, because `shaZero` satisfies the
target at once). -/
def minedW : Block × Blockchain :=
  (bcW1.mineBlock shaZero 9 1 "miner1").getD
    (default, { chain := [], pendingTransactions := [], difficulty := 0 })

/-! ## Claim theorems -/

/-- C1: a successful `mineBlock(minerAddress)` returns a block whose
transaction list is the prior pending transactions in order followed by
exactly one reward transaction (sender "system", recipient the miner,
fee 0), whose index is the prior chain length and whose `previousHash` is
the prior tip hash; the block is appended at the end of the chain (length
grows by one) and the pending pool is empty afterwards. -/
theorem mineBlock_contract (sha256 : String → String) (now fuel : Nat)
    (bc : Blockchain) (minerAddress : String) (blk : Block)
    (bc' : Blockchain)
    (h : bc.mineBlock sha256 now fuel minerAddress = some (blk, bc')) :
    blk.transactions =
      bc.pendingTransactions ++ [rewardTransaction minerAddress now] ∧
    (rewardTransaction minerAddress now).from_ = "system" ∧
    (rewardTransaction minerAddress now).to_ = minerAddress ∧
    (rewardTransaction minerAddress now).fee = 0 ∧
    blk.index = bc.chain.length ∧
    blk.previousHash = bc.getLatestBlock.hash ∧
    bc'.chain = bc.chain ++ [blk] ∧
    bc'.chain.length = bc.chain.length + 1 ∧
    bc'.pendingTransactions = [] := by
  obtain ⟨h1, h2, h3, h4, h5, h6, h7⟩ :=
    mineBlock_some sha256 now fuel bc minerAddress blk bc' h
  subst h7
  exact ⟨h4, rfl, rfl, rfl, h1, h2, rfl, by simp, rfl⟩

/-- Witness for C1 at a concrete ledger with one pending transaction. -/
theorem mineBlock_contract_witness :
    minedW.1.transactions =
      bcW1.pendingTransactions ++ [rewardTransaction "miner1" 9] ∧
    minedW.1.index = bcW1.chain.length ∧
    minedW.2.chain = bcW1.chain ++ [minedW.1] ∧
    minedW.2.pendingTransactions = [] := by
  have h : bcW1.mineBlock shaZero 9 1 "miner1" = some (minedW.1, minedW.2) := by
    decide
  have hc := mineBlock_contract shaZero 9 1 bcW1 "miner1" minedW.1 minedW.2 h
  exact ⟨hc.1, hc.2.2.2.2.1, hc.2.2.2.2.2.2.1, hc.2.2.2.2.2.2.2.2⟩

/-- C3: `addTransaction(tx)` succeeds exactly when `tx.from` and `tx.to`
are non-empty, `tx.amount > 0` and `tx.fee >= 0` (no balance or signature
check); on success the transaction is appended at the end of the pending
pool, on failure the state is unchanged. -/
theorem addTransaction_contract (bc : Blockchain) (tx : Transaction) :
    ((bc.addTransaction tx).1 = true ↔
      (tx.from_ ≠ "" ∧ tx.to_ ≠ "" ∧ tx.amount > 0 ∧ tx.fee ≥ 0)) ∧
    ((bc.addTransaction tx).1 = true →
      (bc.addTransaction tx).2.pendingTransactions =
        bc.pendingTransactions ++ [tx]) ∧
    ((bc.addTransaction tx).1 = false → (bc.addTransaction tx).2 = bc) := by
  by_cases h : isValidTransaction tx = true
  · have hp : tx.from_ ≠ "" ∧ tx.to_ ≠ "" ∧ tx.amount > 0 ∧ tx.fee ≥ 0 := by
      simpa [isValidTransaction, and_assoc] using h
    simp [Blockchain.addTransaction, h, hp]
  · have hp : ¬ (tx.from_ ≠ "" ∧ tx.to_ ≠ "" ∧ tx.amount > 0 ∧ tx.fee ≥ 0) := by
      simpa [isValidTransaction, and_assoc] using h
    simp [Blockchain.addTransaction, h, hp]

/-- Witness for C3: a valid transaction is appended; an invalid one
(empty sender) leaves the state unchanged. -/
theorem addTransaction_contract_witness :
    (((Blockchain.init shaZero 5).addTransaction txAliceBob).2.pendingTransactions
      = [txAliceBob]) ∧
    (((Blockchain.init shaZero 5).addTransaction
        { txAliceBob with from_ := "" }).2 = Blockchain.init shaZero 5) := by
  constructor
  · have h := (addTransaction_contract (Blockchain.init shaZero 5) txAliceBob).2.1
      (by decide)
    simpa [Blockchain.init] using h
  · exact (addTransaction_contract (Blockchain.init shaZero 5)
      { txAliceBob with from_ := "" }).2.2 (by decide)

/-- C7: right after construction the chain is exactly the genesis block:
index 0, previousHash "0", no transactions, nonce 0, hash equal to its
recomputed content hash; the hash is computed once without a nonce search,
and need not meet the difficulty target (a hash primitive exists for which
it does not). -/
theorem genesisBlock_contract (sha256 : String → String) (now : Nat) :
    (Blockchain.init sha256 now).chain = [createGenesisBlock sha256 now] ∧
    (createGenesisBlock sha256 now).index = 0 ∧
    (createGenesisBlock sha256 now).previousHash = "0" ∧
    (createGenesisBlock sha256 now).transactions = [] ∧
    (createGenesisBlock sha256 now).nonce = 0 ∧
    (createGenesisBlock sha256 now).hash =
      calculateHash sha256 (createGenesisBlock sha256 now) ∧
    (∃ (s : String → String) (t : Nat),
      meetsTarget (Blockchain.init s t).difficulty
        (createGenesisBlock s t).hash = false) :=
  ⟨rfl, rfl, rfl, rfl, rfl, rfl, ⟨shaF, 0, by decide⟩⟩

/-- C9: the block content hash is a pure function of
(index, previousHash, timestamp, transactions, nonce): field-identical
blocks (the stored `hash` may differ) hash identically, and recomputation
on the same block yields the same string. -/
theorem calculateHash_deterministic (sha256 : String → String)
    (b1 b2 : Block) (h1 : b1.index = b2.index)
    (h2 : b1.previousHash = b2.previousHash) (h3 : b1.timestamp = b2.timestamp)
    (h4 : b1.transactions = b2.transactions) (h5 : b1.nonce = b2.nonce) :
    calculateHash sha256 b1 = calculateHash sha256 b2 ∧
    calculateHash sha256 b1 = calculateHash sha256 b1 := by
  constructor
  · rw [calculateHash, calculateHash, blockString, blockString, h1, h2, h3, h4, h5]
  · rfl

/-- Witness for C9: two blocks that differ only in the stored hash. -/
theorem calculateHash_deterministic_witness :
    calculateHash shaZero (default : Block) =
      calculateHash shaZero { (default : Block) with hash := "tampered" } ∧
    calculateHash shaZero (default : Block) =
      calculateHash shaZero (default : Block) :=
  calculateHash_deterministic shaZero (default : Block)
    { (default : Block) with hash := "tampered" } rfl rfl rfl rfl rfl

/-- C10: `validateChain` on any single-block chain is `true`
unconditionally — the loop starts at index 1, so the genesis block's
fields and stored hash are never checked, however they were altered. -/
theorem validateChain_singleton_trivial (sha256 : String → String)
    (b : Block) (pending : List Transaction) (difficulty : Nat) :
    Blockchain.validateChain sha256
      { chain := [b], pendingTransactions := pending,
        difficulty := difficulty } = true := rfl

/-- C2: `validateChain()` is `true` exactly when every block from index 1
on recomputes to its stored hash, links to its predecessor's stored hash
and meets the difficulty target; it is `true` on every freshly mined chain
(genesis plus `mineBlock` products, with transactions admitted in
between), and a failing block forces `false` regardless of the blocks
after it. -/
theorem validateChain_contract (sha256 : String → String) :
    (∀ bc : Blockchain, bc.validateChain sha256 = true ↔
      ∀ (i : Nat) (hi : i < bc.chain.length), 1 ≤ i →
        bc.chain[i].hash = calculateHash sha256 bc.chain[i] ∧
        bc.chain[i].previousHash = bc.chain[i - 1].hash ∧
        meetsTarget bc.difficulty bc.chain[i].hash = true) ∧
    (∀ bc : Blockchain, Reachable sha256 bc →
      bc.validateChain sha256 = true) ∧
    (∀ (difficulty : Nat) (prev cur : Block) (rest rest' : List Block),
      blockChecks sha256 difficulty prev cur = false →
      validateChainFrom sha256 difficulty prev (cur :: rest) = false ∧
      validateChainFrom sha256 difficulty prev (cur :: rest) =
        validateChainFrom sha256 difficulty prev (cur :: rest')) := by
  refine ⟨?_, ?_, ?_⟩
  · intro bc
    rw [validateChain_iff_chain', List.chain'_iff_get]
    constructor
    · intro h i hi h1
      have hj : i - 1 < bc.chain.length - 1 := by omega
      have hblk := h (i - 1) hj
      have hidx : i - 1 + 1 = i := by omega
      simp only [blockChecks, Bool.and_eq_true, decide_eq_true_eq,
        List.get_eq_getElem, hidx] at hblk
      exact ⟨hblk.1.1, hblk.1.2, hblk.2⟩
    · intro h i hilen
      have hi : i + 1 < bc.chain.length := by omega
      have hblk := h (i + 1) hi (by omega)
      simp only [Nat.add_sub_cancel] at hblk
      simp only [blockChecks, Bool.and_eq_true, decide_eq_true_eq,
        List.get_eq_getElem]
      exact ⟨⟨hblk.1, hblk.2.1⟩, hblk.2.2⟩
  · intro bc h
    exact (reachable_valid sha256 bc h).2
  · intro difficulty prev cur rest rest' hfail
    have hc : ∀ r : List Block,
        validateChainFrom sha256 difficulty prev (cur :: r) = false := by
      intro r
      rw [validateChainFrom_cons, hfail, Bool.false_and]
    exact ⟨hc rest, by rw [hc rest, hc rest']⟩

/-- Witness for C2: a freshly mined concrete chain validates, and a broken
block makes validation fail whatever follows it. -/
theorem validateChain_contract_witness :
    minedW.2.validateChain shaZero = true ∧
    validateChainFrom shaZero 4 (createGenesisBlock shaZero 5)
      [{ (default : Block) with previousHash := "bad" }] = false := by
  constructor
  · exact (validateChain_contract shaZero).2.1 minedW.2
      (@Reachable.mine shaZero bcW1 9 1 "miner1" minedW.1 minedW.2
        (Reachable.addTx txAliceBob (Reachable.init 5)) (by decide))
  · exact ((validateChain_contract shaZero).2.2 4
      (createGenesisBlock shaZero 5)
      { (default : Block) with previousHash := "bad" } [] [] (by decide)).1

/-- C4: for a candidate block with nonce 0, if any nonce value makes the
content hash meet the difficulty target then the proof-of-work search
(given enough fuel for the least such nonce) terminates with a hash whose
first D characters are '0', the block's nonce set to the least satisfying
nonce, and the returned hash equal to the block's recomputed content hash;
consequently every block returned by `mineBlock` carries a hash that meets
the target and recomputes from the block. -/
theorem proofOfWork_contract (sha256 : String → String) :
    (∀ (difficulty : Nat) (b : Block) (k : Nat), b.nonce = 0 →
      meetsTarget difficulty
        (calculateHash sha256 { b with nonce := k }) = true →
      ∀ fuel, k < fuel →
        ∃ (b' : Block) (hsh : String),
          mineBlockWithProofOfWork sha256 difficulty fuel b = some (b', hsh) ∧
          meetsTarget difficulty hsh = true ∧
          hsh = calculateHash sha256 b' ∧
          b' = { b with nonce := b'.nonce } ∧
          meetsTarget difficulty
            (calculateHash sha256 { b with nonce := b'.nonce }) = true ∧
          (∀ n, n < b'.nonce →
            meetsTarget difficulty
              (calculateHash sha256 { b with nonce := n }) = false)) ∧
    (∀ (now fuel : Nat) (bc : Blockchain) (addr : String) (blk : Block)
        (bc' : Blockchain),
      bc.mineBlock sha256 now fuel addr = some (blk, bc') →
      meetsTarget bc.difficulty blk.hash = true ∧
      blk.hash = calculateHash sha256 blk) := by
  constructor
  · intro difficulty b k hn0 hk fuel hfuel
    have hk' : meetsTarget difficulty
        (calculateHash sha256 { b with nonce := b.nonce + k }) = true := by
      rw [hn0]
      simpa using hk
    have hsome := pow_succeeds sha256 difficulty k b hk' fuel hfuel
    obtain ⟨⟨b', hsh⟩, heq⟩ := Option.isSome_iff_exists.mp hsome
    obtain ⟨f1, f2, f3, f4, f5, f6, f7, f8, f9⟩ :=
      pow_result_fields sha256 difficulty fuel b b' hsh heq
    have hb' : b' = { b with nonce := b'.nonce } := by
      cases b; cases b'
      simp_all
    refine ⟨b', hsh, heq, f7, f6, hb', ?_, ?_⟩
    · rw [← hb', ← f6]; exact f7
    · intro n hn
      have := f9 n (by omega) hn
      exact this
  · intro now fuel bc addr blk bc' h
    obtain ⟨_, _, _, _, hh, ht, _⟩ :=
      mineBlock_some sha256 now fuel bc addr blk bc' h
    exact ⟨ht, hh⟩

/-- Witness for C4: a concrete search that succeeds at once (nonce 0),
and a concrete mined block meeting the target. -/
theorem proofOfWork_contract_witness :
    (∃ (b' : Block) (hsh : String),
      mineBlockWithProofOfWork shaZero 4 1 (default : Block) = some (b', hsh) ∧
      meetsTarget 4 hsh = true ∧
      hsh = calculateHash shaZero b' ∧
      b' = { (default : Block) with nonce := b'.nonce } ∧
      meetsTarget 4
        (calculateHash shaZero
          { (default : Block) with nonce := b'.nonce }) = true ∧
      (∀ n, n < b'.nonce →
        meetsTarget 4
          (calculateHash shaZero
            { (default : Block) with nonce := n }) = false)) ∧
    (meetsTarget bcW1.difficulty minedW.1.hash = true ∧
      minedW.1.hash = calculateHash shaZero minedW.1) := by
  constructor
  · exact (proofOfWork_contract shaZero).1 4 (default : Block) 0 rfl
      (by decide) 1 (by decide)
  · exact (proofOfWork_contract shaZero).2 9 1 bcW1 "miner1" minedW.1 minedW.2
      (by decide)

/-- C5: `getBalance(address)` is the sum over all chained transactions of
`+amount` for the recipient and `-(amount+fee)` for the sender; pending
transactions contribute nothing; an address in no chained transaction has
balance 0; and in the spec's concrete scenario (fresh chain, admit
alice→bob amount 50 fee 1, mine as "miner1") bob ends at 50, alice at -51
and miner1 at the block reward 50. -/
theorem getBalance_contract (sha256 : String → String) :
    (∀ (bc : Blockchain) (address : String),
      bc.getBalance address =
        (bc.chain.map
          (fun blk => (blk.transactions.map (txNet address)).sum)).sum) ∧
    (∀ (bc : Blockchain) (address : String) (pending : List Transaction),
      Blockchain.getBalance
        { bc with pendingTransactions := pending } address =
        bc.getBalance address) ∧
    (∀ (bc : Blockchain) (address : String),
      (∀ blk ∈ bc.chain, ∀ tx ∈ blk.transactions,
        tx.from_ ≠ address ∧ tx.to_ ≠ address) →
      bc.getBalance address = 0) ∧
    (∀ (t0 ts now fuel : Nat) (sig : String) (blk : Block)
        (bc' : Blockchain),
      (((Blockchain.init sha256 t0).addTransaction
          { from_ := "alice", to_ := "bob", amount := 50, fee := 1,
            timestamp := ts, signature := sig }).2.mineBlock
        sha256 now fuel "miner1") = some (blk, bc') →
      bc'.getBalance "bob" = 50 ∧ bc'.getBalance "alice" = -51 ∧
      bc'.getBalance "miner1" = 50) := by
  refine ⟨?_, ?_, ?_, ?_⟩
  · intro bc address
    exact getBalance_eq_sum bc address
  · intro bc address pending
    rfl
  · intro bc address h
    rw [getBalance_eq_sum]
    apply List.sum_eq_zero
    intro x hx
    obtain ⟨blk, hblk, hval⟩ := List.mem_map.mp hx
    rw [← hval]
    apply List.sum_eq_zero
    intro y hy
    obtain ⟨tx, htx, hty⟩ := List.mem_map.mp hy
    obtain ⟨hf, ht⟩ := h blk hblk tx htx
    rw [← hty, txNet]
    simp [hf, ht]
  · intro t0 ts now fuel sig blk bc' hmine
    have hval : isValidTransaction
        { from_ := "alice", to_ := "bob", amount := 50, fee := 1,
          timestamp := ts, signature := sig } = true := by rfl
    have hbc1 : ((Blockchain.init sha256 t0).addTransaction
        { from_ := "alice", to_ := "bob", amount := 50, fee := 1,
          timestamp := ts, signature := sig }).2 =
        { chain := [createGenesisBlock sha256 t0]
          pendingTransactions :=
            [{ from_ := "alice", to_ := "bob", amount := 50, fee := 1,
               timestamp := ts, signature := sig }]
          difficulty := 4 } := by
      rw [Blockchain.addTransaction, hval]
      rfl
    rw [hbc1] at hmine
    obtain ⟨_, _, _, htx, _, _, hbc'⟩ :=
      mineBlock_some sha256 now fuel _ "miner1" blk bc' hmine
    subst hbc'
    refine ⟨?_, ?_, ?_⟩ <;>
      · rw [getBalance_eq_sum]
        simp only [List.map_append, List.map_cons, List.map_nil,
          List.sum_append, List.sum_cons, List.sum_nil]
        rw [htx]
        simp [txNet, rewardTransaction, createGenesisBlock]

/-- Witness for C5 at the concrete scenario state. -/
theorem getBalance_contract_witness :
    minedW.2.getBalance "bob" = 50 ∧ minedW.2.getBalance "alice" = -51 ∧
    minedW.2.getBalance "miner1" = 50 :=
  (getBalance_contract shaZero).2.2.2 5 7 9 1 "sig1" minedW.1 minedW.2
    (by decide)

/-- A concrete node over a fresh ledger, for the networking claims. -/
def nodeW : NodeState :=
  { blockchain := Blockchain.init shaZero 5, peers := [], isRunning := true,
    nodeId := "node_w" }

/-- A concrete inbound block, distinct from the genesis block. -/
def blkW : Block :=
  { index := 1, previousHash := "0000", timestamp := 9,
    transactions := [], nonce := 0, hash := "0000" }

/-- Counterexample to C6 as stated: a NEW_BLOCK message does NOT admit the
received block into the local ledger's chain — `handleNewBlock` only logs,
the node state is returned unchanged and the block is nowhere in the
chain. -/
theorem handleMessage_newBlock_not_admitted :
    (handleMessage
      { type := "NEW_BLOCK", data := MsgData.blockData blkW, timestamp := 9,
        fromPeer := some "peer1" } "peer1" nodeW).1 = nodeW ∧
    blkW ∉ (handleMessage
      { type := "NEW_BLOCK", data := MsgData.blockData blkW, timestamp := 9,
        fromPeer := some "peer1" } "peer1" nodeW).1.blockchain.chain := by
  constructor
  · rfl
  · decide

/-- C6 (amended): dispatch routes purely on `message.type`; a NEW_BLOCK
message is only logged (received + "validated and added") and leaves the
ledger and node state unchanged — no validation or chain append happens; a
NEW_TRANSACTION message performs exactly one `addTransaction` call with
the message payload; an unrecognized type is logged and dropped with no
state change and no exception. -/
theorem handleMessage_contract (peerId : String) (node : NodeState) :
    (∀ (msg : NetworkMessage) (b : Block), msg.type = "NEW_BLOCK" →
      msg.data = MsgData.blockData b →
      handleMessage msg peerId node =
        (node, [NodeEvent.logReceivedBlock b.index,
                NodeEvent.logBlockValidatedAdded b.index])) ∧
    (∀ (msg : NetworkMessage) (t : Transaction),
      msg.type = "NEW_TRANSACTION" → msg.data = MsgData.txData t →
      (handleMessage msg peerId node).1 =
        { node with blockchain := (node.blockchain.addTransaction t).2 } ∧
      ((handleMessage msg peerId node).2.count
        (NodeEvent.ledgerAddTransactionCall t) = 1) ∧
      (∀ t', NodeEvent.ledgerAddTransactionCall t' ∈
          (handleMessage msg peerId node).2 → t' = t)) ∧
    (∀ msg : NetworkMessage,
      msg.type ∉ (["NEW_BLOCK", "NEW_TRANSACTION", "BLOCK_REQUEST",
        "PEER_DISCOVERY", "PING"] : List String) →
      handleMessage msg peerId node =
        (node, [NodeEvent.logUnknownType msg.type])) := by
  refine ⟨?_, ?_, ?_⟩
  · intro msg b hty hdata
    rw [handleMessage, hty, hdata]
    simp [handleNewBlock]
  · intro msg t hty hdata
    rw [handleMessage, hty, hdata]
    simp only [String.reduceEq, if_false, if_true, reduceIte]
    refine ⟨rfl, ?_, ?_⟩
    · simp [handleNewTransaction, List.count_cons, List.count_nil]
    · intro t' ht'
      simp [handleNewTransaction] at ht'
      exact ht'
  · intro msg hty
    simp only [List.mem_cons, List.mem_singleton, List.not_mem_nil] at hty
    push_neg at hty
    obtain ⟨h1, h2, h3, h4, h5⟩ := hty
    rw [handleMessage]
    simp [h1, h2, h3, h4, h5]

/-- Witness for C6 (amended) at concrete messages. -/
theorem handleMessage_contract_witness :
    (handleMessage
      { type := "NEW_BLOCK", data := MsgData.blockData blkW, timestamp := 9,
        fromPeer := none } "p" nodeW =
      (nodeW, [NodeEvent.logReceivedBlock blkW.index,
               NodeEvent.logBlockValidatedAdded blkW.index])) ∧
    ((handleMessage
      { type := "NEW_TRANSACTION", data := MsgData.txData txAliceBob,
        timestamp := 9, fromPeer := none } "p" nodeW).2.count
        (NodeEvent.ledgerAddTransactionCall txAliceBob) = 1) ∧
    (handleMessage
      { type := "GOSSIP", data := MsgData.emptyData, timestamp := 9,
        fromPeer := none } "p" nodeW =
      (nodeW, [NodeEvent.logUnknownType "GOSSIP"])) := by
  refine ⟨?_, ?_, ?_⟩
  · exact (handleMessage_contract "p" nodeW).1
      { type := "NEW_BLOCK", data := MsgData.blockData blkW, timestamp := 9,
        fromPeer := none } blkW rfl rfl
  · exact ((handleMessage_contract "p" nodeW).2.1
      { type := "NEW_TRANSACTION", data := MsgData.txData txAliceBob,
        timestamp := 9, fromPeer := none } txAliceBob rfl rfl).2.1
  · exact (handleMessage_contract "p" nodeW).2.2
      { type := "GOSSIP", data := MsgData.emptyData, timestamp := 9,
        fromPeer := none } (by decide)

/-- C8: `start()` makes `isMiningActive()` true and `stop()` makes it
false; an iteration that observes a cleared flag exits without touching
the ledger (no `mineBlock` call); with the flag set, an iteration with an
empty pending pool only waits, and one with a non-empty pool whose
`mineBlock` returns performs the mine-and-broadcast action with the
produced block and successor state. -/
theorem miner_contract (sha256 : String → String) (now fuel : Nat)
    (m : Miner) (bc : Blockchain) :
    (m.start.isMiningActive = true) ∧
    (m.stop.isMiningActive = false) ∧
    (m.isMining = false →
      miningLoopIter sha256 now fuel m bc = (bc, MinerAction.exited)) ∧
    (m.isMining = true → bc.getPendingTransactions = [] →
      miningLoopIter sha256 now fuel m bc = (bc, MinerAction.idled)) ∧
    (∀ (blk : Block) (bc' : Blockchain), m.isMining = true →
      bc.getPendingTransactions ≠ [] →
      bc.mineBlock sha256 now fuel m.minerAddress = some (blk, bc') →
      miningLoopIter sha256 now fuel m bc =
        (bc', MinerAction.minedAndBroadcast blk)) := by
  refine ⟨rfl, rfl, ?_, ?_, ?_⟩
  · intro hflag
    rw [miningLoopIter, hflag]
    rfl
  · intro hflag hpool
    rw [miningLoopIter, hflag, hpool]
    rfl
  · intro blk bc' hflag hpool hmine
    rw [miningLoopIter, hflag]
    have hlen : 0 < bc.getPendingTransactions.length :=
      List.length_pos.mpr hpool
    simp only [Bool.not_true, Bool.false_eq_true, if_false, hlen, if_true]
    rw [hmine]

/-- Witness for C8 at a concrete miner and ledger. -/
theorem miner_contract_witness :
    (miningLoopIter shaZero 9 1
      { isMining := false, minerAddress := "miner1" } bcW1 =
      (bcW1, MinerAction.exited)) ∧
    (miningLoopIter shaZero 9 1
      { isMining := true, minerAddress := "miner1" }
      (Blockchain.init shaZero 5) =
      (Blockchain.init shaZero 5, MinerAction.idled)) ∧
    (miningLoopIter shaZero 9 1
      { isMining := true, minerAddress := "miner1" } bcW1 =
      (minedW.2, MinerAction.minedAndBroadcast minedW.1)) := by
  refine ⟨?_, ?_, ?_⟩
  · exact (miner_contract shaZero 9 1
      { isMining := false, minerAddress := "miner1" } bcW1).2.2.1 rfl
  · exact (miner_contract shaZero 9 1
      { isMining := true, minerAddress := "miner1" }
      (Blockchain.init shaZero 5)).2.2.2.1 rfl rfl
  · exact (miner_contract shaZero 9 1
      { isMining := true, minerAddress := "miner1" } bcW1).2.2.2.2
      minedW.1 minedW.2 rfl (by decide) (by decide)
